import Mathlib

/-!
Shallow embedding of `djalgorithm.py` (a Deutsch-Jozsa implementation built on
Qiskit), together with an ideal state-vector semantics for the gate set the
program uses, and proofs about the program's behaviour.

Modelling conventions:
* A gate is a tagged record (`Gate`); a Qiskit `QuantumCircuit` (and the
  `Instruction` obtained from `to_instruction`, which keeps wire and
  classical-bit counts and the gate list) is wire count + classical-bit count
  + ordered gate list.
* Measurement-outcome dictionaries are association lists from keys to counts;
  a key is the list of measured classical-bit values, indexed by classical-bit
  number (the all-zero string is the all-`false` list, which is invariant
  under any bit-order convention).
* Quantum states are unnormalised integer amplitude vectors indexed by the
  number whose binary digit `i` is the value of wire `i`.
* The internal random draws (`np.random.randint`) are passed in as explicit
  arguments; the set of values the source can draw is modelled separately.
-/

/-- A reversible gate / measurement operation as used by `djalgorithm.py`:
Hadamard, Pauli-X, controlled-X (control, target), barrier, and measurement of
a qubit into a classical bit. -/
inductive Gate where
  | h (q : Nat)
  | x (q : Nat)
  | cx (c t : Nat)
  | barrier
  | measure (q c : Nat)
deriving DecidableEq

/-- A Qiskit `QuantumCircuit` (or the `Instruction` made from one): a declared
qubit count, classical-bit count, and ordered gate list. -/
structure QuantumCircuit where
  num_qubits : Nat
  num_clbits : Nat
  gates : List Gate
deriving DecidableEq

namespace DJAlgorithm

/-- The X-gate layer of `give_a_balanced_oracle`: the loop
`for index, qubit in enumerate(reversed(inputs)): if qubit == "1": oracle.x(index)`.
`inputs` is `random_number` written as an `inputs_count`-digit binary string,
so position `index` of the reversed string is bit `index` of the number. -/
def xLayerGates (inputs_count random_number : Nat) : List Gate :=
  (List.range inputs_count).filterMap fun index =>
    if random_number.testBit index then some (Gate.x index) else none

/-- The CX layer of `give_a_balanced_oracle`: the loop
`for index, qubit in enumerate(inputs): oracle.cx(index, inputs_count)`.
The loop body ignores `qubit`, so a CX is emitted for every index. -/
def cxLayerGates (inputs_count : Nat) : List Gate :=
  (List.range inputs_count).map fun index => Gate.cx index inputs_count

/-- `DJAlgorithm.give_a_balanced_oracle` from `djalgorithm.py`.  The value of
the internal draw `random_number = np.random.randint(1, 2**inputs_count)` is
passed in as an argument; see `balanced_mask_draws` for the set of values the
source can draw.  The oracle circuit is built as
`QuantumCircuit(inputs_count + 1, inputs_count)` followed by the X layer, the
CX layer, and the X layer again. -/
def give_a_balanced_oracle (inputs_count random_number : Nat) : QuantumCircuit :=
  { num_qubits := inputs_count + 1
    num_clbits := inputs_count
    gates := xLayerGates inputs_count random_number
      ++ cxLayerGates inputs_count
      ++ xLayerGates inputs_count random_number }

/-- The set of values `np.random.randint(1, 2**inputs_count)` can return:
the integers of `[1, 2**inputs_count)` (the upper bound is exclusive). -/
def balanced_mask_draws (inputs_count : Nat) : Finset Nat :=
  Finset.Ico 1 (2 ^ inputs_count)

/-- `DJAlgorithm.give_a_constant_oracle` from `djalgorithm.py`.  The outcome of
the internal coin `np.random.randint(2) == 1` is passed in as `coin`.  The
oracle is `QuantumCircuit(inputs_count + 1)` (no classical bits), with an X on
the ancilla wire exactly when the coin came up 1. -/
def give_a_constant_oracle (inputs_count : Nat) (coin : Bool) : QuantumCircuit :=
  { num_qubits := inputs_count + 1
    num_clbits := 0
    gates := if coin then [Gate.x inputs_count] else [] }

/-- The Hadamard loops of `_construct_the_circuit`:
`for qubit in range(input_length): _circuit.h(qubit)`. -/
def hLayerGates (input_length : Nat) : List Gate :=
  (List.range input_length).map fun qubit => Gate.h qubit

/-- The measurement loop of `_construct_the_circuit`:
`for qubit in range(input_length): _circuit.measure(qubit, qubit)`. -/
def measureGates (input_length : Nat) : List Gate :=
  (List.range input_length).map fun qubit => Gate.measure qubit qubit

/-- `DJAlgorithm._construct_the_circuit` from `djalgorithm.py`: H on every
input wire, X then H on the ancilla, a barrier, the oracle's gates verbatim
(`_circuit.append` with the identity wire and classical-bit mapping), a
barrier, H on every input wire, a barrier, and a measurement of each input
wire into the classical bit of the same index. -/
def construct_the_circuit (oracle_block : QuantumCircuit) : QuantumCircuit :=
  let input_length := oracle_block.num_qubits - 1
  { num_qubits := input_length + 1
    num_clbits := input_length
    gates := hLayerGates input_length
      ++ [Gate.x input_length, Gate.h input_length, Gate.barrier]
      ++ oracle_block.gates
      ++ [Gate.barrier]
      ++ hLayerGates input_length
      ++ [Gate.barrier]
      ++ measureGates input_length }

/-- The decision rule of `DJAlgorithm.simulate` (lines 28-31 of
`djalgorithm.py`): if the all-zero string of length `key_len`
(`"0" * (circuit.num_qubits - 1)`) is a key of the counts dictionary, the
verdict is `Constant`, otherwise `Balanced`. -/
def classify (key_len : Nat) (answer : List (List Bool × Nat)) : String :=
  if answer.any (fun kv => kv.1 == List.replicate key_len false) then "Constant"
  else "Balanced"

/-- `DJAlgorithm.simulate` from `djalgorithm.py`, with the counts dictionary
returned by the Aer backend passed in as `answer` (the backend itself is the
external collaborator; `validAnswer` below states the contract an ideal
noiseless backend satisfies).  The verdict is computed from the circuit built
by `_construct_the_circuit` exactly as in the source. -/
def simulate (oracle_block : QuantumCircuit) (answer : List (List Bool × Nat)) : String :=
  classify ((construct_the_circuit oracle_block).num_qubits - 1) answer

/-! ### Ideal state-vector semantics of the gate set

Amplitudes are unnormalised integers: every gate of the program scales
amplitudes by powers of `√2` only, and those global factors cancel when asking
which outcomes have non-zero probability.  Basis states are numbers whose
binary digit `i` is the value of wire `i`. -/

/-- One gate acting on an unnormalised amplitude vector.  `h q` is the
Hadamard on wire `q` (scaled by `√2`), `x q` flips bit `q`, `cx c t` flips bit
`t` where bit `c` is set; barriers are inert, and measurements do not change
the amplitude vector (outcomes are read off at the end, see
`outcomeWeight`). -/
def applyGate (g : Gate) (ψ : Nat → Int) : Nat → Int :=
  match g with
  | .h q => fun b =>
      if b.testBit q then ψ (b ^^^ 2 ^ q) - ψ b else ψ b + ψ (b ^^^ 2 ^ q)
  | .x q => fun b => ψ (b ^^^ 2 ^ q)
  | .cx c t => fun b => if b.testBit c then ψ (b ^^^ 2 ^ t) else ψ b
  | .barrier => ψ
  | .measure _ _ => ψ

/-- Run a gate list left to right on an amplitude vector. -/
def runGates (gs : List Gate) (ψ : Nat → Int) : Nat → Int :=
  gs.foldl (fun s g => applyGate g s) ψ

/-- Every wire starts in `|0⟩`. -/
def initState : Nat → Int := fun b => if b = 0 then 1 else 0

/-- Amplitude vector after running a circuit's gates from the all-zero state. -/
def finalState (c : QuantumCircuit) : Nat → Int := runGates c.gates initState

/-- The (qubit, classical bit) pair recorded by a measurement gate. -/
def measureRecord : Gate → Option (Nat × Nat)
  | .measure q cl => some (q, cl)
  | _ => none

/-- The (qubit, classical bit) pairs measured by a circuit. -/
def measuresOf (c : QuantumCircuit) : List (Nat × Nat) :=
  c.gates.filterMap measureRecord

/-- Value of classical bit `i` in an outcome key. -/
def keyBit (key : List Bool) (i : Nat) : Bool := key.getD i false

/-- A basis state `b` is compatible with outcome key `key` when every measured
qubit's value agrees with the recorded classical bit. -/
def consistentKey (ms : List (Nat × Nat)) (b : Nat) (key : List Bool) : Bool :=
  ms.all fun qc => b.testBit qc.1 == keyBit key qc.2

/-- Unnormalised probability weight of an outcome key: the squared-amplitude
mass of the final state on the compatible basis states. -/
def outcomeWeight (c : QuantumCircuit) (key : List Bool) : Int :=
  ∑ b ∈ Finset.range (2 ^ c.num_qubits),
    (if consistentKey (measuresOf c) b key then (finalState c b) ^ 2 else 0)

/-- Contract of an ideal (noiseless) execution backend, as used by
`simulate`: the returned counts dictionary is non-empty, its keys have one
classical bit per declared classical bit, and every key that appears was
actually observed, i.e. has non-zero probability weight under the ideal
semantics. -/
def validAnswer (c : QuantumCircuit) (answer : List (List Bool × Nat)) : Prop :=
  answer ≠ [] ∧
    ∀ kv ∈ answer, kv.1.length = c.num_clbits ∧ outcomeWeight c kv.1 ≠ 0

instance (c : QuantumCircuit) (answer : List (List Bool × Nat)) :
    Decidable (validAnswer c answer) := by
  unfold validAnswer
  infer_instance

/-! ### Classical reversible semantics (for the oracle's boolean function) -/

/-- Parity of the low `k` bits of `b` (`false` = an even number of ones). -/
def parityBelow : Nat → Nat → Bool
  | 0, _ => false
  | k + 1, b => (parityBelow k b).xor (b.testBit k)

/-- The sign `(-1) ^ (number of ones among the low k bits of b)`. -/
def sgnPar (k b : Nat) : Int := if parityBelow k b then -1 else 1

/-- Classical (reversible) action of a single gate on a basis state; `none`
for the gates with no classical action (Hadamard). -/
def classicalStep (b : Nat) : Gate → Option Nat
  | .x q => some (b ^^^ 2 ^ q)
  | .cx c t => some (if b.testBit c then b ^^^ 2 ^ t else b)
  | .barrier => some b
  | .measure _ _ => some b
  | .h _ => none

/-- Run a gate list classically, left to right. -/
def classicalRun (gs : List Gate) (b : Nat) : Option Nat :=
  gs.foldlM classicalStep b

/-- The boolean function an oracle circuit computes: feed classical input `x`
on the input wires and `0` on the ancilla, then read the ancilla wire
(`num_qubits - 1`). -/
def oracleFun (oc : QuantumCircuit) (x : Nat) : Option Bool :=
  (classicalRun oc.gates x).map fun b => b.testBit (oc.num_qubits - 1)

/-! ### The synthesizers on arbitrary integer arguments (failure behaviour) -/

/-- Errors the Python source can raise on malformed input. -/
inductive PyError where
  | valueError
  | circuitError
deriving DecidableEq

/-- Python-style list indexing, as used by Qiskit when a gate is given an
integer wire index: negative indices count from the end of the wire list. -/
def pyListIndex (len : Nat) (i : Int) : Option Nat :=
  if 0 ≤ i then (if i < (len : Int) then some i.toNat else none)
  else (if 0 ≤ i + (len : Int) then some (i + (len : Int)).toNat else none)

/-- `give_a_constant_oracle` on an arbitrary integer argument, recording the
failure behaviour of the source: `QuantumCircuit(inputs_count + 1)` rejects a
negative qubit count, and `oracle.x(inputs_count)` rejects an out-of-range
wire index.  The source contains no `n < 1` validation of its own. -/
def give_a_constant_oracle_checked (inputs_count : Int) (coin : Bool) :
    Except PyError QuantumCircuit :=
  if inputs_count + 1 < 0 then .error .circuitError
  else
    let q := (inputs_count + 1).toNat
    if coin then
      match pyListIndex q inputs_count with
      | some i => .ok { num_qubits := q, num_clbits := 0, gates := [Gate.x i] }
      | none => .error .circuitError
    else .ok { num_qubits := q, num_clbits := 0, gates := [] }

/-- `give_a_balanced_oracle` on an arbitrary integer argument: its first
statement `np.random.randint(1, 2**inputs_count)` raises `ValueError` exactly
when the half-open draw range `[1, 2**inputs_count)` is empty, i.e. when
`inputs_count < 1`; otherwise the drawn `random_number` builds the oracle. -/
def give_a_balanced_oracle_checked (inputs_count : Int) (random_number : Nat) :
    Except PyError QuantumCircuit :=
  if inputs_count < 1 then .error .valueError
  else .ok (give_a_balanced_oracle inputs_count.toNat random_number)

/-! ### Basic facts about gate lists and `runGates` -/

theorem runGates_nil (ψ : Nat → Int) : runGates [] ψ = ψ := rfl

theorem runGates_append (gs hs : List Gate) (ψ : Nat → Int) :
    runGates (gs ++ hs) ψ = runGates hs (runGates gs ψ) :=
  List.foldl_append ..

theorem runGates_cons (g : Gate) (gs : List Gate) (ψ : Nat → Int) :
    runGates (g :: gs) ψ = runGates gs (applyGate g ψ) := rfl

theorem hLayerGates_succ (k : Nat) :
    hLayerGates (k + 1) = hLayerGates k ++ [Gate.h k] := by
  simp [hLayerGates, List.range_succ]

theorem xLayerGates_succ (k m : Nat) :
    xLayerGates (k + 1) m
      = xLayerGates k m ++ (if m.testBit k then [Gate.x k] else []) := by
  by_cases h : m.testBit k <;> simp [xLayerGates, List.range_succ, h]

/-- The first `k` gates of the CX layer targeting wire `n`
(generalisation of `cxLayerGates` used for induction). -/
def cxSeg (k n : Nat) : List Gate :=
  (List.range k).map fun i => Gate.cx i n

theorem cxSeg_succ (k n : Nat) :
    cxSeg (k + 1) n = cxSeg k n ++ [Gate.cx k n] := by
  simp [cxSeg, List.range_succ]

theorem cxLayerGates_eq_cxSeg (n : Nat) : cxLayerGates n = cxSeg n n := rfl

/-! ### Arithmetic facts about binary digits -/

theorem div_two_pow_succ (b k : Nat) : b / 2 ^ (k + 1) = b / 2 ^ k / 2 := by
  rw [Nat.pow_succ, ← Nat.div_div_eq_div_mul]

theorem mod_two_pow_succ (b k : Nat) :
    b % 2 ^ (k + 1) = b % 2 ^ k + 2 ^ k * (b / 2 ^ k % 2) := by
  rw [Nat.pow_succ]
  exact Nat.mod_mul

theorem xor_one_even {t : Nat} (h : t % 2 = 0) : t ^^^ 1 = t + 1 := by
  obtain ⟨s, rfl⟩ : ∃ s, t = 2 * s := ⟨t / 2, by omega⟩
  apply Nat.eq_of_testBit_eq
  intro i
  rw [Nat.testBit_xor]
  cases i with
  | zero =>
      have ha : (2 * s).testBit 0 = false := by
        simp only [Nat.testBit_to_div_mod, Nat.pow_zero, Nat.div_one,
          decide_eq_false_iff_not]
        omega
      have hb : (2 * s + 1).testBit 0 = true := by
        simp only [Nat.testBit_to_div_mod, Nat.pow_zero, Nat.div_one,
          decide_eq_true_eq]
        omega
      rw [ha, hb]
      rfl
  | succ j =>
      have h1 : 2 * s / 2 = s := by omega
      have h2 : (2 * s + 1) / 2 = s := by omega
      have h3 : (1 : Nat) / 2 = 0 := by omega
      simp [Nat.testBit_succ, h1, h2, h3, Nat.zero_testBit]

theorem xor_one_odd {t : Nat} (h : t % 2 = 1) : t ^^^ 1 = t - 1 := by
  obtain ⟨s, rfl⟩ : ∃ s, t = 2 * s + 1 := ⟨t / 2, by omega⟩
  apply Nat.eq_of_testBit_eq
  intro i
  rw [Nat.testBit_xor]
  cases i with
  | zero =>
      have ha : (2 * s + 1).testBit 0 = true := by
        simp only [Nat.testBit_to_div_mod, Nat.pow_zero, Nat.div_one,
          decide_eq_true_eq]
        omega
      have hb : (2 * s + 1 - 1).testBit 0 = false := by
        simp only [Nat.testBit_to_div_mod, Nat.pow_zero, Nat.div_one,
          decide_eq_false_iff_not]
        omega
      rw [ha, hb]
      rfl
  | succ j =>
      have h1 : (2 * s + 1) / 2 = s := by omega
      have h2 : (1 : Nat) / 2 = 0 := by omega
      have h3 : (2 * s + 1 - 1) / 2 = s := by omega
      simp [Nat.testBit_succ, h1, h2, h3, Nat.zero_testBit]

theorem xor_one_div_two (t : Nat) : (t ^^^ 1) / 2 = t / 2 := by
  rcases Nat.mod_two_eq_zero_or_one t with h | h
  · rw [xor_one_even h]; omega
  · rw [xor_one_odd h]; omega

theorem div_xor_two_pow (b k : Nat) : (b ^^^ 2 ^ k) / 2 ^ k = b / 2 ^ k ^^^ 1 := by
  apply Nat.eq_of_testBit_eq
  intro i
  rw [← Nat.shiftRight_eq_div_pow, ← Nat.shiftRight_eq_div_pow]
  simp only [Nat.testBit_shiftRight, Nat.testBit_xor]
  have h1 : Nat.testBit (2 ^ k) (k + i) = Nat.testBit 1 i := by
    rcases i with _ | j
    · simp [Nat.testBit_two_pow]
    · have hne : k ≠ k + (j + 1) := by omega
      have h2 : Nat.testBit 1 (j + 1) = false :=
        Nat.testBit_lt_two_pow (Nat.one_lt_two_pow (by omega))
      simp [Nat.testBit_two_pow, hne, h2]
  rw [h1]

theorem mod_xor_high {b j k : Nat} (hk : k ≤ j) : (b ^^^ 2 ^ j) % 2 ^ k = b % 2 ^ k := by
  apply Nat.eq_of_testBit_eq
  intro i
  simp only [Nat.testBit_mod_two_pow, Nat.testBit_xor]
  by_cases hik : i < k
  · have hne : j ≠ i := by omega
    simp [hik, Nat.testBit_two_pow, hne]
  · simp [hik]

theorem div_xor_low {b m k : Nat} (hm : m < 2 ^ k) : (b ^^^ m) / 2 ^ k = b / 2 ^ k := by
  apply Nat.eq_of_testBit_eq
  intro i
  rw [← Nat.shiftRight_eq_div_pow, ← Nat.shiftRight_eq_div_pow]
  simp only [Nat.testBit_shiftRight, Nat.testBit_xor]
  have h1 : m.testBit (k + i) = false :=
    Nat.testBit_lt_two_pow
      (lt_of_lt_of_le hm (Nat.pow_le_pow_right (by omega) (by omega)))
  simp [h1]

theorem div_xor_two_pow_succ (b k : Nat) : (b ^^^ 2 ^ k) / 2 ^ (k + 1) = b / 2 ^ (k + 1) := by
  rw [div_two_pow_succ, div_xor_two_pow, xor_one_div_two, div_two_pow_succ]

theorem testBit_add_two_pow {z q n : Nat} (hq : q < n) :
    (z + 2 ^ n).testBit q = z.testBit q := by
  have h1 : ((z + 2 ^ n) % 2 ^ n).testBit q = (z + 2 ^ n).testBit q := by
    rw [Nat.testBit_mod_two_pow]
    simp [hq]
  have h2 : (z % 2 ^ n).testBit q = z.testBit q := by
    rw [Nat.testBit_mod_two_pow]
    simp [hq]
  have h3 : (z + 2 ^ n) % 2 ^ n = z % 2 ^ n := Nat.add_mod_right z (2 ^ n)
  rw [← h2, ← h3, h1]

/-! ### Facts about `parityBelow`, `sgnPar` and the ancilla profile `gZero` -/

theorem parityBelow_succ (k b : Nat) :
    parityBelow (k + 1) b = (parityBelow k b).xor (b.testBit k) := rfl

theorem parityBelow_zero_arg (k : Nat) : parityBelow k 0 = false := by
  induction k with
  | zero => rfl
  | succ k ih => rw [parityBelow_succ, ih, Nat.zero_testBit]; rfl

theorem parityBelow_xor (k a b : Nat) :
    parityBelow k (a ^^^ b) = (parityBelow k a).xor (parityBelow k b) := by
  induction k with
  | zero => rfl
  | succ k ih =>
      rw [parityBelow_succ, parityBelow_succ, parityBelow_succ, ih, Nat.testBit_xor]
      cases parityBelow k a <;> cases parityBelow k b <;>
        cases a.testBit k <;> cases b.testBit k <;> rfl

theorem parityBelow_two_pow_high {k j : Nat} (hk : k ≤ j) :
    parityBelow k (2 ^ j) = false := by
  induction k with
  | zero => rfl
  | succ k ih =>
      have h1 : Nat.testBit (2 ^ j) k = false :=
        Nat.testBit_two_pow_of_ne (by omega)
      rw [parityBelow_succ, ih (by omega), h1]
      rfl

theorem parityBelow_xor_high {k j b : Nat} (hk : k ≤ j) :
    parityBelow k (b ^^^ 2 ^ j) = parityBelow k b := by
  rw [parityBelow_xor, parityBelow_two_pow_high hk]
  cases parityBelow k b <;> rfl

theorem sgnPar_succ (k b : Nat) :
    sgnPar (k + 1) b = sgnPar k b * (if b.testBit k then -1 else 1) := by
  unfold sgnPar
  rw [parityBelow_succ]
  cases parityBelow k b <;> cases b.testBit k <;> norm_num

theorem sgnPar_xor (k a b : Nat) :
    sgnPar k (a ^^^ b) = sgnPar k a * sgnPar k b := by
  unfold sgnPar
  rw [parityBelow_xor]
  cases parityBelow k a <;> cases parityBelow k b <;> norm_num

theorem sgnPar_mul_self (k b : Nat) : sgnPar k b * sgnPar k b = 1 := by
  unfold sgnPar
  cases parityBelow k b <;> norm_num

theorem sgnPar_zero_count (b : Nat) : sgnPar 0 b = 1 := rfl

/-- The amplitude profile of the ancilla wire after the `|-⟩` preparation:
`+1` on ancilla value 0, `-1` on ancilla value 1, `0` on the (unused) basis
indices whose bits above the ancilla are set. -/
def gZero (t : Nat) : Int :=
  if t = 0 then 1 else if t = 1 then -1 else 0

theorem gZero_xor_one (t : Nat) : gZero (t ^^^ 1) = - gZero t := by
  rcases Nat.mod_two_eq_zero_or_one t with h | h
  · rw [xor_one_even h]
    rcases eq_or_ne t 0 with rfl | ht
    · norm_num [gZero]
    · have h1 : t + 1 ≠ 1 := by omega
      have h2 : t ≠ 1 := by omega
      have h3 : t + 1 ≠ 0 := by omega
      simp [gZero, ht, h1, h2, h3]
  · rw [xor_one_odd h]
    rcases eq_or_ne t 1 with rfl | ht
    · norm_num [gZero]
    · have h1 : t ≠ 0 := by omega
      have h2 : t - 1 ≠ 0 := by omega
      have h3 : t - 1 ≠ 1 := by omega
      simp [gZero, ht, h1, h2, h3]

theorem gZero_of_two_le {t : Nat} (ht : 2 ≤ t) : gZero t = 0 := by
  have h1 : t ≠ 0 := by omega
  have h2 : t ≠ 1 := by omega
  simp [gZero, h1, h2]

/-! ### Action of single gates, unfolded -/

theorem applyGate_h (q : Nat) (ψ : Nat → Int) (b : Nat) :
    applyGate (Gate.h q) ψ b
      = if b.testBit q then ψ (b ^^^ 2 ^ q) - ψ b else ψ b + ψ (b ^^^ 2 ^ q) := rfl

theorem applyGate_x (q : Nat) (ψ : Nat → Int) (b : Nat) :
    applyGate (Gate.x q) ψ b = ψ (b ^^^ 2 ^ q) := rfl

theorem applyGate_cx (c t : Nat) (ψ : Nat → Int) (b : Nat) :
    applyGate (Gate.cx c t) ψ b = if b.testBit c then ψ (b ^^^ 2 ^ t) else ψ b := rfl

theorem applyGate_barrier (ψ : Nat → Int) : applyGate Gate.barrier ψ = ψ := rfl

theorem applyGate_measure (q cl : Nat) (ψ : Nat → Int) :
    applyGate (Gate.measure q cl) ψ = ψ := rfl

theorem runGates_singleton (g : Gate) (ψ : Nat → Int) :
    runGates [g] ψ = applyGate g ψ := rfl

/-! ### The Hadamard layer on the input wires

The three lemmas below describe the action of `hLayerGates k` (H on wires
`0 … k-1`) on the three state shapes the Deutsch-Jozsa circuit passes through:
a state concentrated on low bits all zero, a state whose amplitude ignores the
low bits, and a state whose amplitude carries the parity sign of the low
bits. -/

theorem runGates_hLayer_delta (k : Nat) (g : Nat → Int) :
    runGates (hLayerGates k)
        (fun b => g (b / 2 ^ k) * (if b % 2 ^ k = 0 then 1 else 0))
      = fun b => g (b / 2 ^ k) := by
  induction k generalizing g with
  | zero =>
      funext b
      simp [hLayerGates, runGates, Nat.mod_one]
  | succ k ih =>
      rw [hLayerGates_succ, runGates_append]
      have hsplit :
          (fun b => g (b / 2 ^ (k + 1)) * (if b % 2 ^ (k + 1) = 0 then 1 else 0))
            = fun b => (fun t => g (t / 2) * (if t % 2 = 0 then 1 else 0)) (b / 2 ^ k)
                * (if b % 2 ^ k = 0 then 1 else 0) := by
        funext b
        have h1 := div_two_pow_succ b k
        have h2 := mod_two_pow_succ b k
        have hp := Nat.two_pow_pos k
        rcases Nat.mod_two_eq_zero_or_one (b / 2 ^ k) with hb2 | hb2 <;>
          rw [hb2] at h2 <;> by_cases hb : b % 2 ^ k = 0
        · have h3 : b % 2 ^ (k + 1) = 0 := by omega
          simp [h1, hb, hb2, h3]
        · have h3 : b % 2 ^ (k + 1) ≠ 0 := by omega
          simp [h1, hb, h3]
        · have h3 : b % 2 ^ (k + 1) ≠ 0 := by omega
          have h4 : b / 2 ^ k % 2 ≠ 0 := by omega
          simp [h1, hb, h3, h4]
        · have h3 : b % 2 ^ (k + 1) ≠ 0 := by omega
          simp [h1, hb, h3]
      rw [hsplit, ih (fun t => g (t / 2) * if t % 2 = 0 then 1 else 0)]
      funext b
      rw [runGates_singleton, applyGate_h]
      have hdiv : (b ^^^ 2 ^ k) / 2 ^ k = b / 2 ^ k ^^^ 1 := div_xor_two_pow b k
      have hsucc : b / 2 ^ (k + 1) = b / 2 ^ k / 2 := div_two_pow_succ b k
      rcases Nat.mod_two_eq_zero_or_one (b / 2 ^ k) with ht | ht
      · have htb : b.testBit k = false := by
          rw [Nat.testBit_to_div_mod]
          simp [ht]
        have hx1 : b / 2 ^ k ^^^ 1 = b / 2 ^ k + 1 := xor_one_even ht
        have hx2 : (b / 2 ^ k + 1) % 2 ≠ 0 := by omega
        rw [htb, if_neg (by simp)]
        rw [hdiv, hx1]
        simp [ht, hx2, hsucc]
      · have htb : b.testBit k = true := by
          rw [Nat.testBit_to_div_mod]
          simp [ht]
        have hx1 : b / 2 ^ k ^^^ 1 = b / 2 ^ k - 1 := xor_one_odd ht
        have hx2 : (b / 2 ^ k - 1) % 2 = 0 := by omega
        have hx3 : (b / 2 ^ k - 1) / 2 = b / 2 ^ k / 2 := by
          generalize b / 2 ^ k = t at ht ⊢
          omega
        have hx4 : b / 2 ^ k % 2 ≠ 0 := by omega
        rw [htb, if_pos rfl]
        rw [hdiv, hx1]
        simp [hx2, hx3, hx4, hsucc]

theorem runGates_hLayer_flat (k : Nat) (g : Nat → Int) :
    runGates (hLayerGates k) (fun b => g (b / 2 ^ k))
      = fun b => 2 ^ k * g (b / 2 ^ k) * (if b % 2 ^ k = 0 then 1 else 0) := by
  induction k generalizing g with
  | zero =>
      funext b
      simp [hLayerGates, runGates, Nat.mod_one]
  | succ k ih =>
      rw [hLayerGates_succ, runGates_append]
      have hsplit : (fun b => g (b / 2 ^ (k + 1)))
          = fun b => (fun t => g (t / 2)) (b / 2 ^ k) := by
        funext b
        rw [div_two_pow_succ]
      rw [hsplit, ih (fun t => g (t / 2))]
      funext b
      rw [runGates_singleton, applyGate_h]
      have hdiv : (b ^^^ 2 ^ k) / 2 ^ k = b / 2 ^ k ^^^ 1 := div_xor_two_pow b k
      have hmod : (b ^^^ 2 ^ k) % 2 ^ k = b % 2 ^ k := mod_xor_high (le_refl k)
      have hsucc : b / 2 ^ (k + 1) = b / 2 ^ k / 2 := div_two_pow_succ b k
      have hm2 := mod_two_pow_succ b k
      have hp := Nat.two_pow_pos k
      have hps : (2 : Nat) ^ (k + 1) = 2 ^ k * 2 := by rw [Nat.pow_succ]
      have hpow : (2 : Int) ^ (k + 1) = 2 ^ k * 2 := by rw [pow_succ]
      rcases Nat.mod_two_eq_zero_or_one (b / 2 ^ k) with ht | ht
      · have htb : b.testBit k = false := by
          rw [Nat.testBit_to_div_mod]
          simp [ht]
        rw [ht] at hm2
        have hx1 : b / 2 ^ k ^^^ 1 = b / 2 ^ k + 1 := xor_one_even ht
        have hx2 : (b / 2 ^ k + 1) / 2 = b / 2 ^ k / 2 := by
          generalize b / 2 ^ k = t at ht ⊢
          omega
        have hx3 : b % 2 ^ (k + 1) = b % 2 ^ k := by omega
        rw [htb, if_neg (by simp)]
        rw [hdiv, hmod, hx1, hx2, hx3, hsucc, hpow]
        ring
      · have htb : b.testBit k = true := by
          rw [Nat.testBit_to_div_mod]
          simp [ht]
        rw [ht] at hm2
        have hx1 : b / 2 ^ k ^^^ 1 = b / 2 ^ k - 1 := xor_one_odd ht
        have hx2 : (b / 2 ^ k - 1) / 2 = b / 2 ^ k / 2 := by
          generalize b / 2 ^ k = t at ht ⊢
          omega
        have hx3 : b % 2 ^ (k + 1) ≠ 0 := by omega
        rw [htb, if_pos rfl]
        rw [hdiv, hmod, hx1, hx2]
        rw [if_neg hx3]
        ring

theorem runGates_hLayer_signed (k : Nat) (g : Nat → Int) :
    runGates (hLayerGates k) (fun b => g (b / 2 ^ k) * sgnPar k b)
      = fun b => 2 ^ k * g (b / 2 ^ k) * (if b % 2 ^ k = 2 ^ k - 1 then 1 else 0) := by
  induction k generalizing g with
  | zero =>
      funext b
      simp [hLayerGates, runGates, Nat.mod_one, sgnPar, parityBelow]
  | succ k ih =>
      rw [hLayerGates_succ, runGates_append]
      have hsplit :
          (fun b => g (b / 2 ^ (k + 1)) * sgnPar (k + 1) b)
            = fun b => (fun t => g (t / 2) * (if t % 2 = 1 then -1 else 1)) (b / 2 ^ k)
                * sgnPar k b := by
        funext b
        rw [sgnPar_succ, div_two_pow_succ, Nat.testBit_to_div_mod]
        rcases Nat.mod_two_eq_zero_or_one (b / 2 ^ k) with ht | ht <;> simp [ht]
      rw [hsplit, ih (fun t => g (t / 2) * (if t % 2 = 1 then -1 else 1))]
      funext b
      rw [runGates_singleton, applyGate_h]
      have hdiv : (b ^^^ 2 ^ k) / 2 ^ k = b / 2 ^ k ^^^ 1 := div_xor_two_pow b k
      have hmod : (b ^^^ 2 ^ k) % 2 ^ k = b % 2 ^ k := mod_xor_high (le_refl k)
      have hsucc : b / 2 ^ (k + 1) = b / 2 ^ k / 2 := div_two_pow_succ b k
      have hm2 := mod_two_pow_succ b k
      have hp := Nat.two_pow_pos k
      have hps : (2 : Nat) ^ (k + 1) = 2 ^ k * 2 := by rw [Nat.pow_succ]
      have hpow : (2 : Int) ^ (k + 1) = 2 ^ k * 2 := by rw [pow_succ]
      have hlt : b % 2 ^ k < 2 ^ k := Nat.mod_lt b hp
      rcases Nat.mod_two_eq_zero_or_one (b / 2 ^ k) with ht | ht
      · have htb : b.testBit k = false := by
          rw [Nat.testBit_to_div_mod]
          simp [ht]
        have hx1 : b / 2 ^ k ^^^ 1 = b / 2 ^ k + 1 := xor_one_even ht
        have hx2 : (b / 2 ^ k + 1) / 2 = b / 2 ^ k / 2 := by
          generalize b / 2 ^ k = t at ht ⊢
          omega
        rw [ht] at hm2
        have hx4 : (b / 2 ^ k + 1) % 2 = 1 := by omega
        have hx3 : b % 2 ^ (k + 1) ≠ 2 ^ (k + 1) - 1 := by omega
        rw [htb, if_neg (by simp)]
        rw [hdiv, hmod, hx1, hx2, hx4]
        rw [if_neg hx3]
        simp [ht]
        by_cases hδ : b % 2 ^ k = 2 ^ k - 1 <;> simp [hδ]
      · have htb : b.testBit k = true := by
          rw [Nat.testBit_to_div_mod]
          simp [ht]
        have hx1 : b / 2 ^ k ^^^ 1 = b / 2 ^ k - 1 := xor_one_odd ht
        have hx2 : (b / 2 ^ k - 1) / 2 = b / 2 ^ k / 2 := by
          generalize b / 2 ^ k = t at ht ⊢
          omega
        have hx4 : (b / 2 ^ k - 1) % 2 = 0 := by omega
        rw [ht] at hm2
        rw [htb, if_pos rfl]
        rw [hdiv, hmod, hx1, hx2, hx4]
        by_cases hδ : b % 2 ^ k = 2 ^ k - 1
        · have hx5 : b % 2 ^ (k + 1) = 2 ^ (k + 1) - 1 := by omega
          rw [if_pos hδ, if_pos hx5, hsucc, hpow]
          simp [ht]
          ring
        · have hx5 : b % 2 ^ (k + 1) ≠ 2 ^ (k + 1) - 1 := by omega
          rw [if_neg hδ, if_neg hx5]
          simp [ht]

/-! ### The X layer and the CX layer of the balanced oracle -/

theorem two_pow_xor_mod {k m : Nat} (htb : m.testBit k = true) :
    2 ^ k ^^^ m % 2 ^ k = m % 2 ^ (k + 1) := by
  apply Nat.eq_of_testBit_eq
  intro i
  rw [Nat.testBit_xor, Nat.testBit_two_pow, Nat.testBit_mod_two_pow,
    Nat.testBit_mod_two_pow]
  by_cases h1 : i < k
  · have h2 : k ≠ i := by omega
    have h3 : i < k + 1 := by omega
    simp [h1, h2, h3]
  · by_cases h2 : i = k
    · subst h2
      simp [h1, htb]
    · have h3 : k ≠ i := fun h => h2 h.symm
      have h4 : ¬i < k + 1 := by omega
      simp [h1, h3, h4]

theorem mod_two_pow_succ_of_testBit_false {k m : Nat} (htb : m.testBit k = false) :
    m % 2 ^ (k + 1) = m % 2 ^ k := by
  have h3 : m / 2 ^ k % 2 = 0 := by
    rw [Nat.testBit_to_div_mod] at htb
    simpa using htb
  have hm2 := mod_two_pow_succ m k
  rw [h3] at hm2
  omega

theorem runGates_xLayer (k m : Nat) (ψ : Nat → Int) :
    runGates (xLayerGates k m) ψ = fun b => ψ (b ^^^ m % 2 ^ k) := by
  induction k with
  | zero =>
      funext b
      simp [xLayerGates, runGates, Nat.mod_one]
  | succ k ih =>
      rw [xLayerGates_succ, runGates_append, ih]
      by_cases htb : m.testBit k
      · rw [if_pos htb]
        funext b
        rw [runGates_singleton, applyGate_x]
        rw [Nat.xor_assoc, two_pow_xor_mod htb]
      · rw [if_neg htb]
        rw [mod_two_pow_succ_of_testBit_false (Bool.eq_false_iff.mpr htb)]
        rfl

theorem runGates_cxSeg {k n : Nat} (hk : k ≤ n) (g : Nat → Int) :
    runGates (cxSeg k n) (fun b => g (b / 2 ^ n))
      = fun b => if parityBelow k b then g ((b ^^^ 2 ^ n) / 2 ^ n) else g (b / 2 ^ n) := by
  induction k with
  | zero =>
      funext b
      simp [cxSeg, runGates, parityBelow]
  | succ k ih =>
      rw [cxSeg_succ, runGates_append, ih (by omega)]
      funext b
      rw [runGates_singleton, applyGate_cx]
      have hpar : parityBelow k (b ^^^ 2 ^ n) = parityBelow k b :=
        parityBelow_xor_high (by omega)
      have hcancel : b ^^^ 2 ^ n ^^^ 2 ^ n = b := by
        rw [Nat.xor_assoc, Nat.xor_self, Nat.xor_zero]
      cases htb : b.testBit k <;> cases hpb : parityBelow k b <;>
        simp [parityBelow_succ, htb, hpb, hpar, hcancel]

/-! ### Gates that do not change the amplitude vector -/

theorem runGates_inert {gs : List Gate}
    (h : ∀ g ∈ gs, ∀ φ : Nat → Int, applyGate g φ = φ) (ψ : Nat → Int) :
    runGates gs ψ = ψ := by
  induction gs generalizing ψ with
  | nil => rfl
  | cons g gs ih =>
      rw [runGates_cons, h g (by simp)]
      exact ih (fun g' hg' φ => h g' (by simp [hg']) φ) ψ

theorem runGates_measureGates (k : Nat) (ψ : Nat → Int) :
    runGates (measureGates k) ψ = ψ := by
  apply runGates_inert
  intro g hg φ
  simp only [measureGates, List.mem_map, List.mem_range] at hg
  obtain ⟨q, _, rfl⟩ := hg
  rfl

theorem runGates_barrier (ψ : Nat → Int) : runGates [Gate.barrier] ψ = ψ := by
  rw [runGates_singleton, applyGate_barrier]

/-! ### State of the composed circuit before the oracle

After H on every input wire and X-then-H on the ancilla, the amplitude vector
is `gZero` of the high part: `+1` when the bits from wire `n` up read 0, `-1`
when they read 1, and `0` otherwise. -/

theorem runGates_minus_prep (n : Nat) :
    runGates [Gate.x n, Gate.h n, Gate.barrier]
        (fun b => (fun t : Nat => if t = 0 then (1 : Int) else 0) (b / 2 ^ n))
      = fun b => gZero (b / 2 ^ n) := by
  funext b
  have hrun : runGates [Gate.x n, Gate.h n, Gate.barrier]
      (fun b => (fun t : Nat => if t = 0 then (1 : Int) else 0) (b / 2 ^ n))
      = applyGate Gate.barrier (applyGate (Gate.h n) (applyGate (Gate.x n)
          (fun b => (fun t : Nat => if t = 0 then (1 : Int) else 0) (b / 2 ^ n)))) := rfl
  rw [hrun, applyGate_barrier, applyGate_h]
  have hψ1 : ∀ y, applyGate (Gate.x n)
      (fun b => (fun t : Nat => if t = 0 then (1 : Int) else 0) (b / 2 ^ n)) y
      = if y / 2 ^ n = 1 then (1 : Int) else 0 := by
    intro y
    rw [applyGate_x]
    simp only [div_xor_two_pow]
    simp [Nat.xor_eq_zero]
  rw [hψ1, hψ1, div_xor_two_pow]
  have htb : b.testBit n = decide (b / 2 ^ n % 2 = 1) := Nat.testBit_to_div_mod
  rw [htb]
  generalize b / 2 ^ n = t
  rcases Nat.mod_two_eq_zero_or_one t with ht | ht
  · have hx1 : t ^^^ 1 = t + 1 := xor_one_even ht
    rw [ht, hx1]
    rw [if_neg (by simp)]
    rcases eq_or_ne t 0 with rfl | h0
    · norm_num [gZero]
    · have h1 : t ≠ 1 := by omega
      have h2 : t + 1 ≠ 1 := by omega
      have h3 : (2 : Nat) ≤ t := by omega
      simp [h1, h2, gZero_of_two_le h3]
  · have hx1 : t ^^^ 1 = t - 1 := xor_one_odd ht
    rw [ht, hx1]
    rw [if_pos (by simp)]
    rcases eq_or_ne t 1 with rfl | h0
    · norm_num [gZero]
    · have h1 : t - 1 ≠ 1 := by omega
      have h3 : (2 : Nat) ≤ t := by omega
      simp [h0, h1, gZero_of_two_le h3]

/-- The all-zero initial state, factored into low and high binary parts. -/
theorem initState_factor (n : Nat) :
    initState
      = fun b => (fun t : Nat => if t = 0 then (1 : Int) else 0) (b / 2 ^ n)
          * (if b % 2 ^ n = 0 then 1 else 0) := by
  funext b
  rcases eq_or_ne b 0 with rfl | hb
  · simp [initState]
  · have hnz : ¬(b / 2 ^ n = 0 ∧ b % 2 ^ n = 0) := by
      rintro ⟨hd, hmz⟩
      have hdm := Nat.div_add_mod b (2 ^ n)
      rw [hd, hmz] at hdm
      simp at hdm
      exact hb hdm.symm
    by_cases hd : b / 2 ^ n = 0
    · have hmz : b % 2 ^ n ≠ 0 := fun hmz => hnz ⟨hd, hmz⟩
      simp [initState, hb, hd, hmz]
    · simp [initState, hb, hd]

/-! ### The final state of the composed Deutsch-Jozsa circuit -/

theorem finalState_constant (n : Nat) (coin : Bool) :
    finalState (construct_the_circuit (give_a_constant_oracle n coin))
      = fun b => 2 ^ n * ((if coin then (-1 : Int) else 1) * gZero (b / 2 ^ n))
          * (if b % 2 ^ n = 0 then 1 else 0) := by
  have hgates : (construct_the_circuit (give_a_constant_oracle n coin)).gates
      = hLayerGates n ++ [Gate.x n, Gate.h n, Gate.barrier]
        ++ (if coin then [Gate.x n] else []) ++ [Gate.barrier] ++ hLayerGates n
        ++ [Gate.barrier] ++ measureGates n := by
    simp [construct_the_circuit, give_a_constant_oracle]
  have horacle : runGates (if coin then [Gate.x n] else []) (fun b => gZero (b / 2 ^ n))
      = fun b => (if coin then (-1 : Int) else 1) * gZero (b / 2 ^ n) := by
    cases coin <;> funext b <;>
      simp [runGates, applyGate_x, div_xor_two_pow, gZero_xor_one]
  unfold finalState
  rw [hgates]
  simp only [runGates_append]
  rw [initState_factor n,
    runGates_hLayer_delta n (fun t : Nat => if t = 0 then (1 : Int) else 0),
    runGates_minus_prep n, horacle, runGates_barrier, runGates_barrier,
    runGates_hLayer_flat n (fun t : Nat => (if coin then (-1 : Int) else 1) * gZero t),
    runGates_measureGates]

theorem finalState_balanced (n m : Nat) (hm : m < 2 ^ n) :
    finalState (construct_the_circuit (give_a_balanced_oracle n m))
      = fun b => 2 ^ n * (sgnPar n m * gZero (b / 2 ^ n))
          * (if b % 2 ^ n = 2 ^ n - 1 then 1 else 0) := by
  have hgates : (construct_the_circuit (give_a_balanced_oracle n m)).gates
      = hLayerGates n ++ [Gate.x n, Gate.h n, Gate.barrier]
        ++ (xLayerGates n m ++ cxLayerGates n ++ xLayerGates n m) ++ [Gate.barrier]
        ++ hLayerGates n ++ [Gate.barrier] ++ measureGates n := by
    simp [construct_the_circuit, give_a_balanced_oracle]
  have hs4 : runGates (xLayerGates n m) (fun b => gZero (b / 2 ^ n))
      = fun b => gZero (b / 2 ^ n) := by
    rw [runGates_xLayer]
    funext b
    rw [Nat.mod_eq_of_lt hm, div_xor_low hm]
  have hs5 : runGates (cxLayerGates n) (fun b => gZero (b / 2 ^ n))
      = fun b => sgnPar n b * gZero (b / 2 ^ n) := by
    rw [cxLayerGates_eq_cxSeg, runGates_cxSeg (le_refl n) gZero]
    funext b
    rw [div_xor_two_pow]
    unfold sgnPar
    cases hpb : parityBelow n b
    · simp [hpb]
    · simp [hpb, gZero_xor_one]
  have hs6 : runGates (xLayerGates n m) (fun b => sgnPar n b * gZero (b / 2 ^ n))
      = fun b => sgnPar n m * gZero (b / 2 ^ n) * sgnPar n b := by
    rw [runGates_xLayer]
    funext b
    rw [Nat.mod_eq_of_lt hm, sgnPar_xor, div_xor_low hm]
    ring
  unfold finalState
  rw [hgates]
  simp only [runGates_append]
  rw [initState_factor n,
    runGates_hLayer_delta n (fun t : Nat => if t = 0 then (1 : Int) else 0),
    runGates_minus_prep n, hs4, hs5, hs6, runGates_barrier, runGates_barrier,
    runGates_hLayer_signed n (fun t : Nat => sgnPar n m * gZero t),
    runGates_measureGates]

/-! ### Measurements of the composed circuit and outcome weights -/

theorem measuresOf_construct (oracle_block : QuantumCircuit)
    (hrev : ∀ q cl, Gate.measure q cl ∉ oracle_block.gates) :
    measuresOf (construct_the_circuit oracle_block)
      = (List.range (oracle_block.num_qubits - 1)).map fun q => (q, q) := by
  have hg : (construct_the_circuit oracle_block).gates
      = hLayerGates (oracle_block.num_qubits - 1)
        ++ [Gate.x (oracle_block.num_qubits - 1), Gate.h (oracle_block.num_qubits - 1),
            Gate.barrier]
        ++ oracle_block.gates ++ [Gate.barrier]
        ++ hLayerGates (oracle_block.num_qubits - 1) ++ [Gate.barrier]
        ++ measureGates (oracle_block.num_qubits - 1) := by
    simp [construct_the_circuit]
  have hh : ∀ k, (hLayerGates k).filterMap measureRecord = [] := by
    intro k
    apply List.filterMap_eq_nil_iff.mpr
    intro a ha
    simp only [hLayerGates, List.mem_map, List.mem_range] at ha
    obtain ⟨q, _, rfl⟩ := ha
    rfl
  have hor : oracle_block.gates.filterMap measureRecord = [] := by
    apply List.filterMap_eq_nil_iff.mpr
    intro g hg2
    cases g with
    | measure q cl => exact absurd hg2 (hrev q cl)
    | h q => rfl
    | x q => rfl
    | cx c t => rfl
    | barrier => rfl
  have hms : ∀ k, (measureGates k).filterMap measureRecord
      = (List.range k).map fun q => (q, q) := by
    intro k
    rw [measureGates, List.filterMap_map]
    have hcomp : measureRecord ∘ (fun q : Nat => Gate.measure q q)
        = some ∘ (fun q : Nat => (q, q)) := rfl
    rw [hcomp, List.filterMap_eq_map]
  unfold measuresOf
  rw [hg]
  simp only [List.filterMap_append, hh, hor, hms]
  simp [measureRecord]

theorem consistentKey_range (n b : Nat) (key : List Bool) :
    consistentKey ((List.range n).map fun q => (q, q)) b key = true
      ↔ ∀ q, q < n → b.testBit q = keyBit key q := by
  simp [consistentKey, List.all_eq_true, Function.comp]

/-- A key that agrees with `v` at every classical bit below its length `n` is
the `n`-fold repetition of `v`. -/
theorem key_eq_replicate {key : List Bool} {n : Nat} {v : Bool} (hlen : key.length = n)
    (hbits : ∀ q, q < n → keyBit key q = v) : key = List.replicate n v := by
  apply List.ext_getElem (by simp [hlen])
  intro i h1 h2
  have hb := hbits i (hlen ▸ h1)
  rw [keyBit, List.getD_eq_getElem?_getD, List.getElem?_eq_getElem h1] at hb
  rw [List.getElem_replicate]
  simpa using hb

/-- Outcome weights of a circuit whose final state is concentrated on the two
basis states with low bits `z` (ancilla 0 and ancilla 1): a key has non-zero
weight exactly when it reads `z` on every classical bit below `n`, and in
that case its weight is `2 * 4 ^ n`. -/
theorem outcomeWeight_point (n : Nat) (c : QuantumCircuit) (s : Int) (z : Nat)
    (hq : c.num_qubits = n + 1)
    (hmeas : measuresOf c = (List.range n).map fun q => (q, q))
    (hz : z < 2 ^ n)
    (hs : s = 1 ∨ s = -1)
    (hf : finalState c = fun b => 2 ^ n * (s * gZero (b / 2 ^ n))
        * (if b % 2 ^ n = z then 1 else 0))
    (key : List Bool) :
    outcomeWeight c key
      = if (∀ q, q < n → keyBit key q = z.testBit q) then 2 * ((2 : Int) ^ n * 2 ^ n)
        else 0 := by
  have hp := Nat.two_pow_pos n
  have hps : (2 : Nat) ^ (n + 1) = 2 ^ n * 2 := Nat.pow_succ 2 n
  have hzd : z / 2 ^ n = 0 := Nat.div_eq_of_lt hz
  have hzm : z % 2 ^ n = z := Nat.mod_eq_of_lt hz
  have hz2d : (z + 2 ^ n) / 2 ^ n = 1 := by
    rw [Nat.add_div_right z hp, hzd]
  have hz2m : (z + 2 ^ n) % 2 ^ n = z := by
    rw [Nat.add_mod_right, hzm]
  have hne : z ≠ z + 2 ^ n := by omega
  have hpoint : ∀ b, (if consistentKey (measuresOf c) b key then (finalState c b) ^ 2 else 0)
      = (if b = z
          then (if consistentKey (measuresOf c) z key then (2 : Int) ^ n * 2 ^ n else 0)
          else 0)
        + (if b = z + 2 ^ n
            then (if consistentKey (measuresOf c) (z + 2 ^ n) key
              then (2 : Int) ^ n * 2 ^ n else 0)
            else 0) := by
    intro b
    rcases eq_or_ne b z with rfl | hbz
    · rw [if_pos rfl, if_neg hne, add_zero]
      by_cases hco : consistentKey (measuresOf c) b key = true
      · rw [if_pos hco, if_pos hco]
        simp only [hf, hzd, hzm, if_pos rfl]
        rcases hs with rfl | rfl <;> simp [gZero] <;> ring
      · rw [if_neg hco, if_neg hco]
    · rcases eq_or_ne b (z + 2 ^ n) with rfl | hbz2
      · rw [if_neg hbz, if_pos rfl, zero_add]
        by_cases hco : consistentKey (measuresOf c) (z + 2 ^ n) key = true
        · rw [if_pos hco, if_pos hco]
          simp only [hf, hz2d, hz2m, if_pos rfl]
          rcases hs with rfl | rfl <;> simp [gZero] <;> ring
        · rw [if_neg hco, if_neg hco]
      · rw [if_neg hbz, if_neg hbz2, add_zero]
        by_cases hbm : b % 2 ^ n = z
        · have hdm := Nat.div_add_mod b (2 ^ n)
          have h2 : b / 2 ^ n ≠ 0 := by
            intro h0
            rw [h0, hbm] at hdm
            simp at hdm
            exact hbz hdm.symm
          have h3 : b / 2 ^ n ≠ 1 := by
            intro h0
            rw [h0, hbm] at hdm
            simp at hdm
            exact hbz2 (by omega)
          have h4 : 2 ≤ b / 2 ^ n := by
            generalize b / 2 ^ n = t at h2 h3
            omega
          simp [hf, hbm, gZero_of_two_le h4]
        · simp [hf, hbm]
  unfold outcomeWeight
  rw [Finset.sum_congr rfl (fun b _ => hpoint b), Finset.sum_add_distrib,
    Finset.sum_ite_eq' (Finset.range (2 ^ c.num_qubits)) z,
    Finset.sum_ite_eq' (Finset.range (2 ^ c.num_qubits)) (z + 2 ^ n)]
  have hz1 : z ∈ Finset.range (2 ^ c.num_qubits) := by
    rw [hq]
    apply Finset.mem_range.mpr
    omega
  have hz2 : z + 2 ^ n ∈ Finset.range (2 ^ c.num_qubits) := by
    rw [hq]
    apply Finset.mem_range.mpr
    omega
  rw [if_pos hz1, if_pos hz2]
  have hiff : consistentKey (measuresOf c) (z + 2 ^ n) key = true
      ↔ consistentKey (measuresOf c) z key = true := by
    rw [hmeas, consistentKey_range, consistentKey_range]
    constructor
    · intro h q hq2
      rw [← testBit_add_two_pow hq2]
      exact h q hq2
    · intro h q hq2
      rw [testBit_add_two_pow hq2]
      exact h q hq2
  have hsame : consistentKey (measuresOf c) (z + 2 ^ n) key
      = consistentKey (measuresOf c) z key := by
    cases hc : consistentKey (measuresOf c) z key
    · apply Bool.eq_false_iff.mpr
      intro h
      have h2 := hiff.mp h
      rw [hc] at h2
      exact Bool.false_ne_true h2
    · exact hiff.mpr hc
  rw [hsame]
  by_cases hP : ∀ q, q < n → keyBit key q = z.testBit q
  · have hc : consistentKey (measuresOf c) z key = true := by
      rw [hmeas]
      exact (consistentKey_range n z key).mpr fun q hq2 => (hP q hq2).symm
    have htrue : (if (true = true) then (2 : Int) ^ n * 2 ^ n else 0)
        = (2 : Int) ^ n * 2 ^ n := if_pos rfl
    rw [hc, if_pos hP, htrue]
    ring
  · have hc : consistentKey (measuresOf c) z key = false := by
      apply Bool.eq_false_iff.mpr
      intro hc
      rw [hmeas] at hc
      exact hP fun q hq2 => ((consistentKey_range n z key).mp hc q hq2).symm
    have hfalse : (if (false = true) then (2 : Int) ^ n * 2 ^ n else 0) = 0 :=
      if_neg (by simp)
    rw [hc, if_neg hP, hfalse]
    norm_num

/-! ### Classical evaluation of the balanced oracle -/

theorem classicalRun_append (gs hs : List Gate) (b : Nat) :
    classicalRun (gs ++ hs) b = (classicalRun gs b).bind (classicalRun hs) := by
  unfold classicalRun
  rw [List.foldlM_append]
  rfl

theorem classicalRun_singleton (g : Gate) (b : Nat) :
    classicalRun [g] b = classicalStep b g := by
  unfold classicalRun
  rw [List.foldlM_cons]
  cases classicalStep b g <;> rfl

theorem classicalRun_xLayer (k m b : Nat) :
    classicalRun (xLayerGates k m) b = some (b ^^^ m % 2 ^ k) := by
  induction k with
  | zero => simp [xLayerGates, classicalRun, Nat.mod_one]
  | succ k ih =>
      rw [xLayerGates_succ, classicalRun_append, ih]
      by_cases htb : m.testBit k
      · rw [if_pos htb, Option.some_bind, classicalRun_singleton]
        show some (b ^^^ m % 2 ^ k ^^^ 2 ^ k) = some (b ^^^ m % 2 ^ (k + 1))
        rw [Nat.xor_assoc, Nat.xor_comm (m % 2 ^ k) (2 ^ k), two_pow_xor_mod htb]
      · rw [if_neg htb,
          mod_two_pow_succ_of_testBit_false (Bool.eq_false_iff.mpr htb)]
        simp [classicalRun]

theorem testBit_xor_two_pow_of_lt {b n k : Nat} (hk : k < n) :
    (b ^^^ 2 ^ n).testBit k = b.testBit k := by
  rw [Nat.testBit_xor, Nat.testBit_two_pow_of_ne (by omega)]
  cases b.testBit k <;> rfl

theorem classicalRun_cxSeg {k n : Nat} (hk : k ≤ n) (b : Nat) :
    classicalRun (cxSeg k n) b
      = some (if parityBelow k b then b ^^^ 2 ^ n else b) := by
  induction k with
  | zero => simp [cxSeg, classicalRun, parityBelow]
  | succ k ih =>
      rw [cxSeg_succ, classicalRun_append, ih (by omega), Option.some_bind,
        classicalRun_singleton]
      have hcancel : b ^^^ 2 ^ n ^^^ 2 ^ n = b := by
        rw [Nat.xor_assoc, Nat.xor_self, Nat.xor_zero]
      have htbx : (b ^^^ 2 ^ n).testBit k = b.testBit k :=
        testBit_xor_two_pow_of_lt (by omega)
      cases hpb : parityBelow k b <;> cases htb : b.testBit k <;>
        simp [classicalStep, parityBelow_succ, hpb, htb, htbx, hcancel]

theorem oracleFun_balanced (n m x : Nat) (hm : m < 2 ^ n) (hx : x < 2 ^ n) :
    oracleFun (give_a_balanced_oracle n m) x
      = some ((parityBelow n x).xor (parityBelow n m)) := by
  unfold oracleFun
  have hg : (give_a_balanced_oracle n m).gates
      = xLayerGates n m ++ cxLayerGates n ++ xLayerGates n m := rfl
  have hq : (give_a_balanced_oracle n m).num_qubits - 1 = n := by
    simp [give_a_balanced_oracle]
  rw [hg, hq, classicalRun_append, classicalRun_append, classicalRun_xLayer,
    Nat.mod_eq_of_lt hm, Option.some_bind, cxLayerGates_eq_cxSeg,
    classicalRun_cxSeg (le_refl n), Option.some_bind, classicalRun_xLayer,
    Nat.mod_eq_of_lt hm, parityBelow_xor]
  cases hpx : parityBelow n x <;> cases hpm : parityBelow n m <;>
    simp [hpx, hpm, Nat.testBit_xor, Nat.testBit_two_pow_self,
      Nat.testBit_lt_two_pow hx, Nat.testBit_lt_two_pow hm]

theorem cx_mem_balanced (n m i : Nat) (hi : i < n) :
    Gate.cx i n ∈ (give_a_balanced_oracle n m).gates := by
  have hmem : Gate.cx i n ∈ cxLayerGates n := by
    simp only [cxLayerGates, List.mem_map, List.mem_range]
    exact ⟨i, hi, rfl⟩
  exact List.mem_append.mpr (Or.inl (List.mem_append.mpr (Or.inr hmem)))

/-! ### Supporting facts for the end-to-end runs -/

theorem sgnPar_cases (k b : Nat) : sgnPar k b = 1 ∨ sgnPar k b = -1 := by
  unfold sgnPar
  cases parityBelow k b <;> simp

theorem measure_not_mem_xLayer (k m q cl : Nat) :
    Gate.measure q cl ∉ xLayerGates k m := by
  intro hmem
  simp only [xLayerGates, List.mem_filterMap, List.mem_range] at hmem
  obtain ⟨i, _, hi⟩ := hmem
  by_cases ht : m.testBit i
  · rw [if_pos ht] at hi
    simp at hi
  · rw [if_neg ht] at hi
    simp at hi

theorem measure_not_mem_constant (n : Nat) (coin : Bool) (q cl : Nat) :
    Gate.measure q cl ∉ (give_a_constant_oracle n coin).gates := by
  intro hmem
  cases coin <;> simp [give_a_constant_oracle] at hmem

theorem measure_not_mem_balanced (n m q cl : Nat) :
    Gate.measure q cl ∉ (give_a_balanced_oracle n m).gates := by
  intro hmem
  rcases List.mem_append.mp hmem with h | h
  · rcases List.mem_append.mp h with h2 | h2
    · exact measure_not_mem_xLayer n m q cl h2
    · simp [cxLayerGates, List.mem_map] at h2
  · exact measure_not_mem_xLayer n m q cl h

/-- Every key an ideal backend can report, for a circuit whose outcome weight
is concentrated on the single classical string reading `z`, is the length-`n`
repetition of the common bit value `v` of `z`. -/
theorem answer_keys_eq (n : Nat) (c : QuantumCircuit) (z : Nat) (v : Bool)
    (hcl : c.num_clbits = n)
    (hw : ∀ key, outcomeWeight c key
      = if (∀ q, q < n → keyBit key q = z.testBit q) then 2 * ((2 : Int) ^ n * 2 ^ n)
        else 0)
    (hzb : ∀ q, q < n → z.testBit q = v)
    (answer : List (List Bool × Nat)) (hva : validAnswer c answer) :
    ∀ kv ∈ answer, kv.1 = List.replicate n v := by
  intro kv hkv
  obtain ⟨hlen, hwne⟩ := hva.2 kv hkv
  rw [hw kv.1] at hwne
  have hP : ∀ q, q < n → keyBit kv.1 q = z.testBit q := by
    by_contra hNP
    rw [if_neg hNP] at hwne
    exact hwne rfl
  exact key_eq_replicate (by rw [hlen, hcl]) fun q hq => by rw [hP q hq, hzb q hq]

theorem constant_circuit_num_qubits (n : Nat) (coin : Bool) :
    (construct_the_circuit (give_a_constant_oracle n coin)).num_qubits = n + 1 := by
  simp [construct_the_circuit, give_a_constant_oracle]

theorem constant_circuit_num_clbits (n : Nat) (coin : Bool) :
    (construct_the_circuit (give_a_constant_oracle n coin)).num_clbits = n := by
  simp [construct_the_circuit, give_a_constant_oracle]

theorem balanced_circuit_num_qubits (n m : Nat) :
    (construct_the_circuit (give_a_balanced_oracle n m)).num_qubits = n + 1 := by
  simp [construct_the_circuit, give_a_balanced_oracle]

theorem balanced_circuit_num_clbits (n m : Nat) :
    (construct_the_circuit (give_a_balanced_oracle n m)).num_clbits = n := by
  simp [construct_the_circuit, give_a_balanced_oracle]

theorem measuresOf_constant_circuit (n : Nat) (coin : Bool) :
    measuresOf (construct_the_circuit (give_a_constant_oracle n coin))
      = (List.range n).map fun q => (q, q) := by
  rw [measuresOf_construct _ (fun q cl => measure_not_mem_constant n coin q cl)]
  simp [give_a_constant_oracle]

theorem measuresOf_balanced_circuit (n m : Nat) :
    measuresOf (construct_the_circuit (give_a_balanced_oracle n m))
      = (List.range n).map fun q => (q, q) := by
  rw [measuresOf_construct _ (fun q cl => measure_not_mem_balanced n m q cl)]
  simp [give_a_balanced_oracle]

/-! ### The claims -/

/-- C1: for every `n ≥ 1` and every outcome of the synthesizer's internal
random coin, composing the constant oracle from `give_a_constant_oracle` into
the Deutsch-Jozsa circuit, executing on an ideal noiseless backend
(`validAnswer`), and classifying the outcome distribution yields the verdict
`Constant`. -/
theorem constant_oracle_yields_constant (n : Nat) (hn : 1 ≤ n) (coin : Bool)
    (answer : List (List Bool × Nat))
    (hva : validAnswer (construct_the_circuit (give_a_constant_oracle n coin)) answer) :
    simulate (give_a_constant_oracle n coin) answer = "Constant" := by
  have hw := outcomeWeight_point n (construct_the_circuit (give_a_constant_oracle n coin))
    (if coin then (-1 : Int) else 1) 0
    (constant_circuit_num_qubits n coin) (measuresOf_constant_circuit n coin)
    (Nat.two_pow_pos n) (by cases coin <;> simp) (finalState_constant n coin)
  have hkeys := answer_keys_eq n _ 0 false (constant_circuit_num_clbits n coin) hw
    (fun q _ => Nat.zero_testBit q) answer hva
  obtain ⟨kv, hkv⟩ := List.exists_mem_of_ne_nil answer hva.1
  have hkey := hkeys kv hkv
  unfold simulate classify
  rw [constant_circuit_num_qubits n coin]
  simp only [Nat.add_sub_cancel]
  have hany : answer.any (fun kv2 => kv2.1 == List.replicate n false) = true :=
    List.any_eq_true.mpr ⟨kv, hkv, by simp [hkey]⟩
  rw [if_pos hany]

/-- C2: for every `n ≥ 1` and every one of the `2 ^ n - 1` non-zero masks the
synthesizer can draw, composing the balanced oracle from
`give_a_balanced_oracle` into the Deutsch-Jozsa circuit, executing on an ideal
noiseless backend (`validAnswer`), and classifying the outcome distribution
yields the verdict `Balanced`. -/
theorem balanced_oracle_yields_balanced (n m : Nat) (hn : 1 ≤ n)
    (hm1 : 1 ≤ m) (hm : m < 2 ^ n)
    (answer : List (List Bool × Nat))
    (hva : validAnswer (construct_the_circuit (give_a_balanced_oracle n m)) answer) :
    simulate (give_a_balanced_oracle n m) answer = "Balanced" := by
  have hp := Nat.two_pow_pos n
  have hw := outcomeWeight_point n (construct_the_circuit (give_a_balanced_oracle n m))
    (sgnPar n m) (2 ^ n - 1)
    (balanced_circuit_num_qubits n m) (measuresOf_balanced_circuit n m)
    (by omega) (sgnPar_cases n m) (finalState_balanced n m hm)
  have hzb : ∀ q, q < n → (2 ^ n - 1).testBit q = true := by
    intro q hq
    rw [Nat.testBit_two_pow_sub_one]
    simp [hq]
  have hkeys := answer_keys_eq n _ (2 ^ n - 1) true (balanced_circuit_num_clbits n m)
    hw hzb answer hva
  have hneq : ¬(List.replicate n true = List.replicate n false) := by
    cases n with
    | zero => exact absurd hn (by omega)
    | succ k =>
        intro h
        rw [List.replicate_succ, List.replicate_succ] at h
        simp at h
  have hany : answer.any (fun kv2 => kv2.1 == List.replicate n false) = false := by
    apply List.any_eq_false.mpr
    intro kv hkv
    simp [hkeys kv hkv, hneq]
  unfold simulate classify
  rw [balanced_circuit_num_qubits n m]
  simp only [Nat.add_sub_cancel]
  have hnottrue : ¬(answer.any (fun kv2 => kv2.1 == List.replicate n false) = true) := by
    rw [hany]
    exact Bool.false_ne_true
  rw [if_neg hnottrue]

/-- Witness for C1 at `n = 1`, coin 0, and the backend answer `{"0": 1024}`. -/
theorem constant_oracle_yields_constant_witness :
    (1 ≤ 1
      ∧ validAnswer (construct_the_circuit (give_a_constant_oracle 1 false))
          [([false], 1024)])
    ∧ simulate (give_a_constant_oracle 1 false) [([false], 1024)] = "Constant" :=
  ⟨⟨by decide, by decide⟩,
    constant_oracle_yields_constant 1 (by decide) false [([false], 1024)] (by decide)⟩

/-- Witness for C2 at `n = 1`, mask 1, and the backend answer `{"1": 1024}`. -/
theorem balanced_oracle_yields_balanced_witness :
    (1 ≤ 1 ∧ 1 ≤ 1 ∧ 1 < 2 ^ 1
      ∧ validAnswer (construct_the_circuit (give_a_balanced_oracle 1 1))
          [([true], 1024)])
    ∧ simulate (give_a_balanced_oracle 1 1) [([true], 1024)] = "Balanced" :=
  ⟨⟨by decide, by decide, by decide, by decide⟩,
    balanced_oracle_yields_balanced 1 1 (by decide) (by decide) (by decide)
      [([true], 1024)] (by decide)⟩

/-- C3: for every `n ≥ 1` and every non-empty outcome distribution, the
decision rule returns `Constant` exactly when the all-zero `n`-bit string
occurs among the keys (regardless of its count and of the other keys), and
returns `Balanced` otherwise. -/
theorem classify_decision (n : Nat) (hn : 1 ≤ n) (answer : List (List Bool × Nat))
    (hne : answer ≠ []) :
    (classify n answer = "Constant"
      ↔ ∃ cnt, (List.replicate n false, cnt) ∈ answer)
    ∧ (classify n answer = "Balanced"
      ↔ ¬∃ cnt, (List.replicate n false, cnt) ∈ answer) := by
  have hiff : answer.any (fun kv => kv.1 == List.replicate n false) = true
      ↔ ∃ cnt, (List.replicate n false, cnt) ∈ answer := by
    rw [List.any_eq_true]
    constructor
    · rintro ⟨⟨k1, k2⟩, hkv, hbeq⟩
      have h1 : k1 = List.replicate n false := by simpa using hbeq
      exact ⟨k2, h1 ▸ hkv⟩
    · rintro ⟨cnt, hmem⟩
      exact ⟨(List.replicate n false, cnt), hmem, by simp⟩
  unfold classify
  by_cases h : answer.any (fun kv => kv.1 == List.replicate n false) = true
  · rw [if_pos h]
    refine ⟨⟨fun _ => hiff.mp h, fun _ => rfl⟩,
      ⟨fun hc => absurd hc (by decide), fun hno => absurd (hiff.mp h) hno⟩⟩
  · rw [if_neg h]
    refine ⟨⟨fun hc => absurd hc (by decide), fun hex => absurd (hiff.mpr hex) h⟩,
      ⟨fun _ hex => h (hiff.mpr hex), fun _ => rfl⟩⟩

/-- Witness for C3 at `n = 1` and a two-key distribution. -/
theorem classify_decision_witness :
    (1 ≤ 1 ∧ ([([false], 5), ([true], 2)] : List (List Bool × Nat)) ≠ [])
    ∧ ((classify 1 [([false], 5), ([true], 2)] = "Constant"
        ↔ ∃ cnt, (List.replicate 1 false, cnt) ∈
            ([([false], 5), ([true], 2)] : List (List Bool × Nat)))
      ∧ (classify 1 [([false], 5), ([true], 2)] = "Balanced"
        ↔ ¬∃ cnt, (List.replicate 1 false, cnt) ∈
            ([([false], 5), ([true], 2)] : List (List Bool × Nat)))) :=
  ⟨⟨by decide, by decide⟩,
    classify_decision 1 (by decide) [([false], 5), ([true], 2)] (by decide)⟩

/-- C4 counterexample: for `n = 2` and drawn mask `1`, the synthesizer emits a
controlled-flip controlled by input bit 1 although mask bit 1 is 0 — the
CX loop of the source ignores the mask, so the controlled-flips are not
placed "exactly for each input bit position where the mask bit is 1". -/
theorem balanced_oracle_cx_beyond_mask :
    Gate.cx 1 2 ∈ (give_a_balanced_oracle 2 1).gates
      ∧ (1 : Nat).testBit 1 = false := by
  decide

/-- C4 (amended): for every drawn mask, the balanced-oracle gate list is an
X layer, a CX layer, and the X layer again; the X layer holds an unconditional
flip of input bit `i` exactly for the positions where mask bit `i` is 1, while
the CX layer holds a controlled-flip of the ancilla from every one of the `n`
input wires, regardless of the mask. -/
theorem balanced_oracle_gate_structure (n m : Nat) (hm1 : 1 ≤ m) (hm : m < 2 ^ n) :
    ∃ pre mid post : List Gate,
      (give_a_balanced_oracle n m).gates = pre ++ mid ++ post
      ∧ post = pre
      ∧ (∀ i, Gate.x i ∈ pre ↔ i < n ∧ m.testBit i = true)
      ∧ (∀ g, g ∈ pre → ∃ i, g = Gate.x i)
      ∧ (∀ g, g ∈ mid → ∃ i, i < n ∧ g = Gate.cx i n)
      ∧ (∀ i, i < n → Gate.cx i n ∈ mid) := by
  refine ⟨xLayerGates n m, cxLayerGates n, xLayerGates n m, rfl, rfl, ?_, ?_, ?_, ?_⟩
  · intro i
    constructor
    · intro hmem
      simp only [xLayerGates, List.mem_filterMap, List.mem_range] at hmem
      obtain ⟨j, hj, hij⟩ := hmem
      by_cases ht : m.testBit j
      · rw [if_pos ht] at hij
        have hji : j = i := by
          have := Option.some.inj hij
          cases this
          rfl
        subst hji
        exact ⟨hj, ht⟩
      · rw [if_neg ht] at hij
        exact absurd hij (by simp)
    · rintro ⟨hi, ht⟩
      simp only [xLayerGates, List.mem_filterMap, List.mem_range]
      exact ⟨i, hi, by rw [if_pos ht]⟩
  · intro g hmem
    simp only [xLayerGates, List.mem_filterMap, List.mem_range] at hmem
    obtain ⟨j, _, hij⟩ := hmem
    by_cases ht : m.testBit j
    · rw [if_pos ht] at hij
      exact ⟨j, (Option.some.inj hij).symm⟩
    · rw [if_neg ht] at hij
      exact absurd hij (by simp)
  · intro g hmem
    simp only [cxLayerGates, List.mem_map, List.mem_range] at hmem
    obtain ⟨i, hi, rfl⟩ := hmem
    exact ⟨i, hi, rfl⟩
  · intro i hi
    simp only [cxLayerGates, List.mem_map, List.mem_range]
    exact ⟨i, hi, rfl⟩

/-- Witness for the amended C4 at `n = 2`, mask 1. -/
theorem balanced_oracle_gate_structure_witness :
    (1 ≤ 1 ∧ 1 < 2 ^ 2)
    ∧ ∃ pre mid post : List Gate,
        (give_a_balanced_oracle 2 1).gates = pre ++ mid ++ post
        ∧ post = pre
        ∧ (∀ i, Gate.x i ∈ pre ↔ i < 2 ∧ (1 : Nat).testBit i = true)
        ∧ (∀ g, g ∈ pre → ∃ i, g = Gate.x i)
        ∧ (∀ g, g ∈ mid → ∃ i, i < 2 ∧ g = Gate.cx i 2)
        ∧ (∀ i, i < 2 → Gate.cx i 2 ∈ mid) :=
  ⟨⟨by decide, by decide⟩, balanced_oracle_gate_structure 2 1 (by decide) (by decide)⟩

/-- C5: the internal draw `np.random.randint(1, 2**n)` of the balanced-oracle
synthesizer ranges over exactly the integers of `[1, 2^n - 1]`; in particular
a mask of 0 is never drawn. -/
theorem balanced_mask_draw_range (n : Nat) (hn : 1 ≤ n) :
    (∀ m ∈ balanced_mask_draws n, 1 ≤ m ∧ m ≤ 2 ^ n - 1 ∧ m ≠ 0)
    ∧ ∀ m, 1 ≤ m → m ≤ 2 ^ n - 1 → m ∈ balanced_mask_draws n := by
  have hp := Nat.two_pow_pos n
  constructor
  · intro m hmem
    rw [balanced_mask_draws, Finset.mem_Ico] at hmem
    omega
  · intro m h1 h2
    rw [balanced_mask_draws, Finset.mem_Ico]
    omega

/-- Witness for C5 at `n = 1`. -/
theorem balanced_mask_draw_range_witness :
    1 ≤ 1
    ∧ ((∀ m ∈ balanced_mask_draws 1, 1 ≤ m ∧ m ≤ 2 ^ 1 - 1 ∧ m ≠ 0)
      ∧ ∀ m, 1 ≤ m → m ≤ 2 ^ 1 - 1 → m ∈ balanced_mask_draws 1) :=
  ⟨by decide, balanced_mask_draw_range 1 (by decide)⟩

/-- C6: for every measurement-free oracle over `n + 1` wires, composition
produces a circuit over the same `n + 1` wires with `n` classical bits, and
the ancilla wire `n` is never measured.  (The composed circuit is built as a
pure function of the oracle; the source's `_circuit.append` reads the oracle
without modifying it.) -/
theorem compose_structure (oracle_block : QuantumCircuit) (n : Nat)
    (hq : oracle_block.num_qubits = n + 1)
    (hrev : ∀ q cl, Gate.measure q cl ∉ oracle_block.gates) :
    (construct_the_circuit oracle_block).num_qubits = n + 1
    ∧ (construct_the_circuit oracle_block).num_clbits = n
    ∧ ∀ cl, (n, cl) ∉ measuresOf (construct_the_circuit oracle_block) := by
  have h1 : oracle_block.num_qubits - 1 = n := by omega
  refine ⟨by simp [construct_the_circuit, h1], by simp [construct_the_circuit, h1], ?_⟩
  intro cl hmem
  rw [measuresOf_construct oracle_block hrev, h1] at hmem
  simp only [List.mem_map, List.mem_range] at hmem
  obtain ⟨q, hq2, heq⟩ := hmem
  have hqn : q = n := congrArg Prod.fst heq
  omega

/-- Witness for C6 on the 2-wire identity constant oracle. -/
theorem compose_structure_witness :
    ((give_a_constant_oracle 1 false).num_qubits = 1 + 1
      ∧ ∀ q cl, Gate.measure q cl ∉ (give_a_constant_oracle 1 false).gates)
    ∧ ((construct_the_circuit (give_a_constant_oracle 1 false)).num_qubits = 1 + 1
      ∧ (construct_the_circuit (give_a_constant_oracle 1 false)).num_clbits = 1
      ∧ ∀ cl, (1, cl) ∉ measuresOf (construct_the_circuit (give_a_constant_oracle 1 false))) :=
  ⟨⟨by decide, fun q cl => by simp [give_a_constant_oracle]⟩,
    compose_structure (give_a_constant_oracle 1 false) 1 (by decide)
      (fun q cl => by simp [give_a_constant_oracle])⟩

/-- The stage order of the composed circuit as the specification words it
(spec-side definition, to be compared with `construct_the_circuit`): the
balanced-superposition transform on each input wire, flip-then-transform on
the ancilla, a stage boundary, the oracle's gates verbatim, a boundary, the
transform again on each input wire, a boundary, and a measurement of each
input wire into the classical bit of the same index. -/
def spec_stage_gates (n : Nat) (oracle_gates : List Gate) : List Gate :=
  ((List.range n).map fun q => Gate.h q)
    ++ [Gate.x n, Gate.h n]
    ++ [Gate.barrier] ++ oracle_gates ++ [Gate.barrier]
    ++ ((List.range n).map fun q => Gate.h q)
    ++ [Gate.barrier]
    ++ ((List.range n).map fun q => Gate.measure q q)

/-- C7: for every oracle over `n + 1` wires, the gate sequence produced by
`_construct_the_circuit` is exactly the fixed stage order of the
specification. -/
theorem compose_stage_order (oracle_block : QuantumCircuit) (n : Nat)
    (hq : oracle_block.num_qubits = n + 1) :
    (construct_the_circuit oracle_block).gates
      = spec_stage_gates n oracle_block.gates := by
  have h1 : oracle_block.num_qubits - 1 = n := by omega
  simp [construct_the_circuit, spec_stage_gates, hLayerGates, measureGates, h1]

/-- Witness for C7 on the 2-wire identity constant oracle. -/
theorem compose_stage_order_witness :
    (give_a_constant_oracle 1 false).num_qubits = 1 + 1
    ∧ (construct_the_circuit (give_a_constant_oracle 1 false)).gates
        = spec_stage_gates 1 (give_a_constant_oracle 1 false).gates :=
  ⟨by decide, compose_stage_order (give_a_constant_oracle 1 false) 1 (by decide)⟩

/-- C8 counterexample: at `n = 0 < 1`, constant-oracle synthesis does not fail
with any error — for both coin outcomes it returns a 1-wire oracle, because
`give_a_constant_oracle` performs no validation of its argument. -/
theorem constant_oracle_no_validation :
    give_a_constant_oracle_checked 0 false
        = Except.ok { num_qubits := 1, num_clbits := 0, gates := [] }
    ∧ give_a_constant_oracle_checked 0 true
        = Except.ok { num_qubits := 1, num_clbits := 0, gates := [Gate.x 0] } := by
  constructor <;> rfl

/-- C8 (amended): for every `n < 1`, balanced-oracle synthesis fails (the
draw range `[1, 2**n)` of `np.random.randint` is empty, raising
`ValueError`), but constant-oracle synthesis performs no validation: at
`n = 0` it succeeds for every outcome of the coin. -/
theorem synthesis_failure_behaviour (n : Int) (hn : n < 1) :
    (∀ r : Nat, give_a_balanced_oracle_checked n r = Except.error PyError.valueError)
    ∧ ∀ coin, ∃ c, give_a_constant_oracle_checked 0 coin = Except.ok c := by
  constructor
  · intro r
    unfold give_a_balanced_oracle_checked
    rw [if_pos hn]
  · intro coin
    cases coin
    · exact ⟨_, rfl⟩
    · exact ⟨_, rfl⟩

/-- Witness for the amended C8 at `n = 0`. -/
theorem synthesis_failure_behaviour_witness :
    (0 : Int) < 1
    ∧ ((∀ r : Nat, give_a_balanced_oracle_checked 0 r = Except.error PyError.valueError)
      ∧ ∀ coin, ∃ c, give_a_constant_oracle_checked 0 coin = Except.ok c) :=
  ⟨by decide, synthesis_failure_behaviour 0 (by decide)⟩

/-- C9 counterexample: classifying the empty outcome distribution at `n = 2`
returns the verdict `Balanced` instead of failing — the decision rule of
`simulate` has no emptiness check, and the all-zero key is absent from an
empty dictionary. -/
theorem classify_empty_returns_balanced : classify 2 [] = "Balanced" := rfl

/-- C9 (amended): for every `n ≥ 1`, classifying an empty outcome
distribution does not fail: the decision rule returns `Balanced`, because the
all-zero key is absent. -/
theorem classify_empty_no_failure (n : Nat) (hn : 1 ≤ n) :
    classify n [] = "Balanced" := rfl

/-- Witness for the amended C9 at `n = 3`. -/
theorem classify_empty_no_failure_witness :
    1 ≤ 3 ∧ classify 3 [] = "Balanced" :=
  ⟨by decide, classify_empty_no_failure 3 (by decide)⟩

/-- C10: the balanced-oracle synthesizer emits a controlled-flip from every
one of the `n` input wires to the ancilla regardless of the drawn mask, the
boolean function the oracle computes classically is
`f(x) = parity(x) XOR parity(m)`, and consequently any two non-zero masks of
equal popcount parity yield oracles computing the identical boolean
function. -/
theorem balanced_oracle_parity_function (n : Nat) (hn : 1 ≤ n) :
    (∀ m i, i < n → Gate.cx i n ∈ (give_a_balanced_oracle n m).gates)
    ∧ (∀ m x, m < 2 ^ n → x < 2 ^ n →
        oracleFun (give_a_balanced_oracle n m) x
          = some ((parityBelow n x).xor (parityBelow n m)))
    ∧ ∀ m1 m2, 1 ≤ m1 → m1 < 2 ^ n → 1 ≤ m2 → m2 < 2 ^ n →
        parityBelow n m1 = parityBelow n m2 →
        ∀ x, x < 2 ^ n →
          oracleFun (give_a_balanced_oracle n m1) x
            = oracleFun (give_a_balanced_oracle n m2) x := by
  refine ⟨fun m i hi => cx_mem_balanced n m i hi,
    fun m x hm hx => oracleFun_balanced n m x hm hx, ?_⟩
  intro m1 m2 _ hm1 _ hm2 hpar x hx
  rw [oracleFun_balanced n m1 x hm1 hx, oracleFun_balanced n m2 x hm2 hx, hpar]

/-- Witness for C10 at `n = 1`. -/
theorem balanced_oracle_parity_function_witness :
    1 ≤ 1
    ∧ ((∀ m i, i < 1 → Gate.cx i 1 ∈ (give_a_balanced_oracle 1 m).gates)
      ∧ (∀ m x, m < 2 ^ 1 → x < 2 ^ 1 →
          oracleFun (give_a_balanced_oracle 1 m) x
            = some ((parityBelow 1 x).xor (parityBelow 1 m)))
      ∧ ∀ m1 m2, 1 ≤ m1 → m1 < 2 ^ 1 → 1 ≤ m2 → m2 < 2 ^ 1 →
          parityBelow 1 m1 = parityBelow 1 m2 →
          ∀ x, x < 2 ^ 1 →
            oracleFun (give_a_balanced_oracle 1 m1) x
              = oracleFun (give_a_balanced_oracle 1 m2) x) :=
  ⟨by decide, balanced_oracle_parity_function 1 (by decide)⟩

end DJAlgorithm
